import Mathlib

/-!
Verification of the weight-balancing engine of `doppelganger`
(`src/doppelganger/listbalancer.py`), as a shallow embedding over `ℚ`.

Matrices are `List (List ℚ)` (row-major, like 2-d numpy arrays).  The
external convex solver (cvxpy) is modelled as an oracle: a stream of
outcomes, one per `prob.solve` invocation, where each invocation either
raises `cvx.SolverError` or returns and leaves the decision variables'
`.value` fields set (possibly to `None` when no solution was produced).
Floating-point `**` is modelled by an abstract power function `pw`,
passed as a parameter; all other arithmetic is exact `ℚ` arithmetic.
-/

abbrev Mat := List (List ℚ)

/-- `np.sum` of a vector. -/
def rowSum (r : List ℚ) : ℚ := r.foldl (· + ·) 0

/-- `np.sum` of a whole matrix. -/
def matSum (m : Mat) : ℚ := (m.map rowSum).foldl (· + ·) 0

/-- Dot product `np.dot` of two vectors (truncating at the shorter one). -/
def dotQ (a b : List ℚ) : ℚ := rowSum (List.zipWith (· * ·) a b)

/-- numpy truthiness of a matrix under `np.any`: some entry is nonzero. -/
def anyNonzero (m : Mat) : Bool := m.any (fun r => r.any (fun e => e ≠ 0))

/-- `np.any(v)` where `v` is a variable's `.value`: `None` is falsy. -/
def anyNonzeroOpt : Option Mat → Bool
  | none => false
  | some m => anyNonzero m

/-- Indices of the all-zero rows of `A`: `np.where(~A.any(axis=1))[0]`
(listbalancer.py line 90).  Sorted ascending, as `np.where` returns. -/
def zeroMarginalIndices (A : Mat) : List ℕ :=
  (List.range A.length).filter (fun i => (A.getD i []).all (fun e => e = 0))

/-- `np.delete(m, idxs, axis=0)`: drop the rows whose index is in `idxs`. -/
def deleteRows (m : Mat) (idxs : List ℕ) : Mat :=
  (m.enum.filter (fun p => !(idxs.contains p.1))).map Prod.snd

/-- `np.delete(v, idxs, axis=1)` on a 1-row array, as a plain list. -/
def deleteIdxs (v : List ℚ) (idxs : List ℕ) : List ℚ :=
  (v.enum.filter (fun p => !(idxs.contains p.1))).map Prod.snd

/-- Per-tract rescaling of the prior weights (listbalancer.py lines 107-110):
`wa = (np.sum(A, axis=1) / np.sum(A)).reshape(-1, 1)` and `w = w * wa`. -/
def rescaleWeights (A w : Mat) : Mat :=
  List.zipWith (fun wrow arow => wrow.map (fun v => v * (rowSum arow / matSum A))) w A

/-- Insert `a` before position `n` of a list (no-op when `n` exceeds the
length; bounds are checked separately, as numpy does). -/
def insAt (a : α) : ℕ → List α → List α
  | 0, l => a :: l
  | _ + 1, [] => []
  | n + 1, x :: l => x :: insAt a n l

/-- The positions at which `np.insert` actually places the new rows: numpy
adds `np.arange(len(obj))` to the (sorted) requested indices, so the `j`-th
requested index `p` ends up at final position `p + j`. -/
def npAdjustedIdxs (obj : List ℕ) : List ℕ :=
  obj.enum.map (fun pr => pr.2 + pr.1)

/-- `np.insert(m, obj, v, axis=0)` for a sorted index list `obj`, inserting
copies of the single row `v`.  Returns `none` when numpy would raise:
an adjusted index out of range of the result (`IndexError`), or a row
`v` that does not broadcast to the matrix's row width (`ValueError`). -/
def npInsertRows (m : Mat) (obj : List ℕ) (v : List ℚ) : Option Mat :=
  let adj := npAdjustedIdxs obj
  let width := (m.headD []).length
  if adj.all (fun i => i < m.length + obj.length) then
    if v.length = width ∨ v.length = 1 then
      let row := if v.length = width then v else List.replicate width (v.headD 0)
      some (adj.foldl (fun acc i => insAt row i acc) m)
    else none
  else none

/-- `np.insert(m, obj, zero_column, axis=1)` for a sorted index list `obj`:
a zero entry is inserted in every row at each numpy-adjusted position. -/
def npInsertZeroCols (m : Mat) (obj : List ℕ) : Option Mat :=
  let adj := npAdjustedIdxs obj
  let ncols := (m.headD []).length
  if adj.all (fun i => i < ncols + obj.length) then
    some (m.map (fun r => adj.foldl (fun acc i => insAt 0 i acc) r))
  else none

/-- Outcome of one `prob.solve(...)` invocation of the external solver. -/
inductive SolveOutcome
  | raises
  | returns (xv zv qv : Option Mat)

/-- Python exceptions that can escape `balance_multi_cvx`. -/
inductive PyExn
  | solverError
  | insertError
deriving DecidableEq

/-- The `.value` fields of the cvxpy variables `x`, `z`, `q` (initially
`None`, set by each returning solve). -/
structure CvxVals where
  xv : Option Mat
  zv : Option Mat
  qv : Option Mat

/-- The `mu` backoff taken on a caught `cvx.SolverError`
(listbalancer.py line 156): `mu = np.where(mu > 10, mu - 10, 1)`. -/
def backoffStep (mu : List ℚ) : List ℚ :=
  mu.map (fun e => if 10 < e then e - 10 else 1)

/-- The `while not solved` retry loop of `balance_multi_cvx`
(listbalancer.py lines 120-157).  Each iteration calls the solver twice:
once unprotected (line 146) and once inside `try` (line 149).  `solver k`
is the outcome of the `k`-th solve invocation.  Results: `none` = ran out
of fuel; `some (.error e)` = a Python exception escaped; `some (.ok ...)`
= the loop exited, with the final variable values, `mu`, and the
`importance_weights_relaxed` flag. -/
def bmcLoop (solver : ℕ → SolveOutcome) :
    ℕ → ℕ → List ℚ → CvxVals → Bool → Option (Except PyExn (CvxVals × List ℚ × Bool))
  | 0, _, _, _, _ => none
  | fuel + 1, cIdx, mu, _vals, relaxed =>
    match solver cIdx with
    | .raises => some (.error .solverError)
    | .returns x1 z1 q1 =>
      match solver (cIdx + 1) with
      | .returns x2 z2 q2 => some (.ok (⟨x2, z2, q2⟩, mu, relaxed))
      | .raises =>
        if mu.all (fun e => e = 1) then some (.ok (⟨x1, z1, q1⟩, mu, relaxed))
        else bmcLoop solver fuel (cIdx + 2) (backoffStep mu) ⟨x1, z1, q1⟩ true

/-- `balance_multi_cvx(hh_table, A, B, w, mu, ...)` (listbalancer.py
lines 67-177).  `mu` is the 1-row importance-weight array, one entry per
tract column as consumed by `np.delete(mu, zero_marginals, axis=1)`.
Returns `none` on fuel exhaustion of the retry loop, otherwise the
`(weights_out, zs_out, qs_out)` triple, or the escaped exception. -/
def balance_multi_cvx (solver : ℕ → SolveOutcome) (hh A _B w : Mat)
    (mu : List ℚ) (fuel : ℕ) : Option (Except PyExn (Mat × Option Mat × Option Mat)) :=
  let n_controls := (hh.headD []).length
  let zm := zeroMarginalIndices A
  let zero_weights : List ℚ := List.replicate n_controls 0
  let A1 := deleteRows A zm
  let w1 := deleteRows w zm
  let _mu1 := deleteIdxs mu zm
  let w2 := rescaleWeights A1 w1
  match bmcLoop solver fuel 0 (deleteIdxs mu zm) ⟨none, none, none⟩ false with
  | none => none
  | some (.error e) => some (.error e)
  | some (.ok (vals, _, _)) =>
    let weights0 : Mat :=
      match vals.xv with
      | some xm => if anyNonzero xm then xm else w2
      | none => w2
    if zm.isEmpty then some (.ok (weights0, vals.zv, vals.qv))
    else
      match npInsertRows weights0 zm zero_weights with
      | none => some (.error .insertError)
      | some wout =>
        match vals.zv with
        | none => some (.error .insertError)
        | some zmat =>
          match npInsertZeroCols zmat zm with
          | none => some (.error .insertError)
          | some zout => some (.ok (wout, some zout, vals.qv))

/-- `MAX_GAP` (listbalancer.py line 12). -/
def MAX_GAP : ℚ := 1 / 10000000

/-- `MAX_ITERATIONS` (listbalancer.py line 13). -/
def MAX_ITERATIONS : ℕ := 10000

/-- Column `k` of the household table, as accessed per sample:
`hh_table[:, k]`. -/
def colQ (hh : Mat) (k : ℕ) : List ℚ := hh.map (fun r => r.getD k 0)

/-- The per-sample weight update of one control step (listbalancer.py
lines 234-244): where `hh_table[s, k] > 0`, set
`cur_w[s] = prev_w[s] * alpha_k ** hh_table[s, k]`, then clamp with
`max(..., lower[s])` followed by `min(..., upper[s])`; other samples keep
their current weight.  `pw` is the floating-point `**`. -/
def updateW (pw : ℚ → ℚ → ℚ) (alphaK : ℚ) :
    List ℚ → List ℚ → List ℚ → List ℚ → List ℚ → List ℚ
  | c :: cs, p :: ps, q :: qs, lo :: los, hi :: his =>
    (if 0 < c then min (max (p * pw alphaK c) lo) hi else q) ::
      updateW pw alphaK cs ps qs los his
  | _, _, _, _, _ => []

/-- One step of the sweep `for index, marginal in np.ndenumerate(A)`
(listbalancer.py lines 209-247) at control `k`, acting on the state
`(cur_w, alpha, z)`; `prevw` is `prev_w`, fixed for the whole sweep. -/
def controlStep (pw : ℚ → ℚ → ℚ) (hh : Mat) (A mu lo hi prevw : List ℚ)
    (st : List ℚ × List ℚ × List ℚ) (k : ℕ) : List ℚ × List ℚ × List ℚ :=
  let ck := colQ hh k
  let x := dotQ prevw ck
  let y := dotQ prevw (ck.map (fun c => c * c))
  let marginal := A.getD k 0
  let control_weight := mu.getD k 0
  let zk := st.2.2.getD k 0
  let a :=
    if 0 < x then
      if 0 < marginal then
        1 - (x - marginal * zk) / (y + marginal * zk * (1 / control_weight))
      else 1 / 100
    else 1
  let cur1 := updateW pw a ck prevw st.1 lo hi
  let alpha1 := st.2.1.set k a
  let z1 := st.2.2.set k (zk * pw (1 / a) (1 / control_weight))
  (cur1, alpha1, z1)

/-- One full sweep over all controls.  At sweep start `cur_w` and `prev_w`
hold equal values (both are `w` initially, and `prev_w = cur_w.copy()`
after each sweep), so the state carries a single weight vector `v` that
serves as `prev_w` for the dot products while the updated copy threads
through the fold as `cur_w`. -/
def newtonSweep (pw : ℚ → ℚ → ℚ) (hh : Mat) (A mu lo hi : List ℚ)
    (st : List ℚ × List ℚ × List ℚ) : List ℚ × List ℚ × List ℚ :=
  (List.range A.length).foldl (controlStep pw hh A mu lo hi st.1) st

/-- `np.sum(np.absolute(cur_w - prev_w)) / cur_w.size`
(listbalancer.py line 250). -/
def weightDiff (cur prev : List ℚ) : ℚ :=
  rowSum (List.zipWith (fun a b => |a - b|) cur prev) / (cur.length : ℚ)

/-- The `for it in range(MAX_ITERATIONS)` loop (listbalancer.py
lines 208-254), instrumented with the number of sweeps executed.  A sweep
whose mean absolute weight change is `≤ MAX_GAP` breaks the loop. -/
def newtonLoop (pw : ℚ → ℚ → ℚ) (hh : Mat) (A mu lo hi : List ℚ) :
    ℕ → List ℚ × List ℚ × List ℚ → (List ℚ × List ℚ × List ℚ) × ℕ
  | 0, st => (st, 0)
  | fuel + 1, st =>
    let st1 := newtonSweep pw hh A mu lo hi st
    if weightDiff st1.1 st.1 ≤ MAX_GAP then (st1, 1)
    else
      let r := newtonLoop pw hh A mu lo hi fuel st1
      (r.1, r.2 + 1)

/-- `balance_newton(hh_table, A, w, mu)` (listbalancer.py lines 180-256)
with the executed-sweep count exposed: returns `((cur_w, alpha, z), count)`.
`A` and `mu` are the single rows of the 1-row arrays `A` and `mu`. -/
def balance_newtonFull (pw : ℚ → ℚ → ℚ) (hh : Mat) (A w mu : List ℚ) :
    (List ℚ × List ℚ × List ℚ) × ℕ :=
  let n_controls := (hh.headD []).length
  let lo := w.map (fun v => v / 5)
  let hi := w.map (fun v => v * 5)
  newtonLoop pw hh A mu lo hi MAX_ITERATIONS
    (w, List.replicate n_controls 1, List.replicate n_controls 1)

/-- The `(cur_w, z)` pair that `balance_newton` actually returns. -/
def balance_newton (pw : ℚ → ℚ → ℚ) (hh : Mat) (A w mu : List ℚ) :
    List ℚ × List ℚ :=
  let r := balance_newtonFull pw hh A w mu
  (r.1.1, r.1.2.2)

/-- `astype(int)` on a rational: truncation toward zero. -/
def truncQ (q : ℚ) : ℚ := ((if 0 ≤ q then q.floor else q.ceil : ℤ) : ℚ)

/-- Elementwise map over a matrix. -/
def matMap (f : ℚ → ℚ) (m : Mat) : Mat := m.map (fun r => r.map f)

/-- Elementwise matrix subtraction. -/
def matSub (a b : Mat) : Mat := List.zipWith (fun ra rb => List.zipWith (· - ·) ra rb) a b

/-- Matrix product `np.dot`. -/
def matMul (a b : Mat) : Mat :=
  a.map (fun row => (List.range ((b.headD []).length)).map (fun j => dotQ row (colQ b j)))

/-- `discretize_multi_weights(hh_table, x, gamma, ...)` (listbalancer.py
lines 259-313).  The convex program is external: `solver` receives the
problem data (household table, truncated-weight residual marginals
`A_residuals`, fractional remainders `x_residuals`, and `gamma`) and
yields `y.value`.  The routine then thresholds with `y.value > 0.5` and
casts to int. -/
def discretize_multi_weights (solver : Mat → Mat → Mat → ℚ → Option Mat)
    (hh x : Mat) (gamma : ℚ) : Option Mat :=
  let x_int := matMap truncQ x
  let A_residuals := matSub (matMul x hh) (matMul x_int hh)
  let x_residuals := matSub x x_int
  (solver hh A_residuals x_residuals gamma).map
    (matMap (fun v => if (1 : ℚ) / 2 < v then 1 else 0))

/-- A concrete solver oracle for the C4 evaluation: every solve returns
with `x`, `z`, `q` set to fixed nonzero matrices. -/
def solverC4 : ℕ → SolveOutcome :=
  fun _ => .returns (some [[5, 6], [7, 8]]) (some [[9, 9], [9, 9]]) (some [[4], [4]])

/-- C1.  The claim says `balance_multi_cvx` never lets a solver error
propagate.  The code calls `prob.solve` once OUTSIDE the `try` block
(line 146) before the protected call (line 149), so a `cvx.SolverError`
raised by that first call escapes to the caller: evaluating the model
with a solver that raises on its first invocation yields a propagated
exception, not a returned result. -/
theorem balance_multi_cvx_first_solve_error_escapes :
    balance_multi_cvx (fun _ => .raises) [[1]] [[1]] [[1]] [[1]] [1000] 5 =
      some (.error .solverError) := by
  rfl

/-- C2, counterexample.  The backoff step `np.where(mu > 10, mu - 10, 1)`
maps the entry `21/2` to `1/2`, which is below the claimed floor of `1`;
a further step maps `1/2` back up to `1`, so `mu` is not non-increasing
either. -/
theorem backoffStep_drops_below_one :
    backoffStep [(21 : ℚ) / 2] = [(1 : ℚ) / 2] ∧ ((1 : ℚ) / 2 < 1) ∧
      backoffStep [(1 : ℚ) / 2] = [(1 : ℚ)] ∧ ((1 : ℚ) / 2 < 1) := by
  refine ⟨?_, by norm_num, ?_, by norm_num⟩ <;> norm_num [backoffStep]

/-- C4.  The claim says zero-marginal tracts get their all-zero weight
row re-inserted at the original position.  With tracts 0 and 1 of four
having all-zero marginals, `np.insert` is called with the original
indices `[0, 1]` against the already-shrunk 2-row result, which places
the zero rows at final positions 0 and 2: row 1 of the returned weights
is `[5, 6]` (a solved tract's weights) instead of zeros, and column 1 of
the returned relaxation matrix is likewise nonzero. -/
theorem balance_multi_cvx_misplaces_zero_rows :
    balance_multi_cvx solverC4 [[1, 1], [1, 1]]
        [[0, 0], [0, 0], [3, 3], [3, 3]] [[1, 1]]
        [[1, 1], [1, 1], [1, 1], [1, 1]] [20, 20, 20, 20] 5 =
      some (.ok ([[0, 0], [5, 6], [0, 0], [7, 8]],
        some [[0, 9, 0, 9], [0, 9, 0, 9]], some [[4], [4]])) := by
  rfl

/-- C9.  After removing zero-marginal tracts, the rescaled prior weight
of tract `i`, sample `j` equals `w[i,j] * rowsum(A[i]) / sum(A)`. -/
theorem rescaleWeights_entry (A w : Mat) (i j : ℕ)
    (hiw : i < w.length) (hiA : i < A.length)
    (hj : j < (w.getD i []).length) :
    ((rescaleWeights A w).getD i []).getD j 0 =
      (w.getD i []).getD j 0 * rowSum (A.getD i []) / matSum A := by
  have hj1 : j < (w[i]).length := by
    rw [List.getD_eq_getElem _ _ hiw] at hj; exact hj
  have hlen : i < (rescaleWeights A w).length := by
    simp only [rescaleWeights, List.length_zipWith]; omega
  rw [List.getD_eq_getElem _ _ hlen, List.getD_eq_getElem _ _ hiw,
    List.getD_eq_getElem _ _ hiA]
  have hrow : (rescaleWeights A w)[i] =
      (w[i]).map (fun v => v * (rowSum (A[i]) / matSum A)) := by
    simp only [rescaleWeights]
    exact List.getElem_zipWith ..
  rw [hrow]
  rw [List.getD_eq_getElem _ _ (by simpa using hj1), List.getElem_map,
    ← List.getD_eq_getElem _ 0 hj1, mul_div_assoc]

/-- C9, witness. -/
theorem rescaleWeights_entry_witness :
    (((rescaleWeights [[1, 3], [2, 2]] [[5, 7], [11, 13]]).getD 0 []).getD 1 0 : ℚ) =
      ((([[5, 7], [11, 13]] : Mat).getD 0 []).getD 1 0) *
        rowSum (([[1, 3], [2, 2]] : Mat).getD 0 []) / matSum [[1, 3], [2, 2]] :=
  rescaleWeights_entry [[1, 3], [2, 2]] [[5, 7], [11, 13]] 0 1
    (by norm_num) (by norm_num) (by norm_num)

/-- C8.  Whenever the discretizer's solve produces a value, every entry of
the returned matrix is 0 or 1 (thresholding `y.value > 0.5`). -/
theorem discretize_multi_weights_binary
    (solver : Mat → Mat → Mat → ℚ → Option Mat) (hh x : Mat) (gamma : ℚ)
    (Y : Mat) (h : discretize_multi_weights solver hh x gamma = some Y) :
    ∀ row ∈ Y, ∀ e ∈ row, e = 0 ∨ e = 1 := by
  intro row hrow e he
  rcases hs : solver hh
      (matSub (matMul x hh) (matMul (matMap truncQ x) hh))
      (matSub x (matMap truncQ x)) gamma with _ | yv
  · rw [discretize_multi_weights] at h
    simp only [hs, Option.map_none'] at h
    exact absurd h (by simp)
  · rw [discretize_multi_weights] at h
    simp only [hs, Option.map_some', Option.some_inj] at h
    subst h
    rcases List.mem_map.mp hrow with ⟨r0, _, hr0⟩
    subst hr0
    rcases List.mem_map.mp he with ⟨v, _, hv⟩
    by_cases hc : (1 : ℚ) / 2 < v
    · right; rw [← hv, if_pos hc]
    · left; rw [← hv, if_neg hc]

/-- C8, witness: the entry `1` of the discretized output `[[1, 0]]`. -/
theorem discretize_multi_weights_binary_witness :
    (1 : ℚ) = 0 ∨ (1 : ℚ) = 1 :=
  discretize_multi_weights_binary (fun _ _ _ _ => some [[3 / 4, 1 / 4]])
    [[1, 0], [0, 1]] [[3 / 2, 1 / 2]] 100 [[1, 0]]
    (by norm_num [discretize_multi_weights, matMap])
    [1, 0] (by norm_num) 1 (by norm_num)

/-- Deleting an empty index set is the identity. -/
theorem deleteRows_nil (m : Mat) : deleteRows m [] = m := by
  simp [deleteRows, List.enum_map_snd]

/-- Retry-loop invariant: if every returning solve leaves an `x.value`
with no nonzero entry, and the incoming `x.value` has none, then the
loop's final `x.value` has none either. -/
theorem bmcLoop_xv_all_zero (solver : ℕ → SolveOutcome)
    (hs : ∀ k xv zv qv, solver k = .returns xv zv qv → anyNonzeroOpt xv = false) :
    ∀ (fuel cIdx : ℕ) (mu : List ℚ) (vals : CvxVals) (relaxed : Bool)
      (out : CvxVals × List ℚ × Bool),
      anyNonzeroOpt vals.xv = false →
      bmcLoop solver fuel cIdx mu vals relaxed = some (.ok out) →
      anyNonzeroOpt out.1.xv = false := by
  intro fuel
  induction fuel with
  | zero => intro cIdx mu vals relaxed out _ h; simp [bmcLoop] at h
  | succ n ih =>
    intro cIdx mu vals relaxed out hv h
    rw [bmcLoop] at h
    rcases h1 : solver cIdx with _ | ⟨x1, z1, q1⟩
    · rw [h1] at h; simp at h
    · rw [h1] at h
      dsimp only at h
      have hx1 : anyNonzeroOpt x1 = false := hs cIdx x1 z1 q1 h1
      rcases h2 : solver (cIdx + 1) with _ | ⟨x2, z2, q2⟩
      · rw [h2] at h
        dsimp only at h
        by_cases hall : mu.all (fun e => e = 1)
        · rw [if_pos hall] at h
          rcases Option.some_inj.mp h with h3
          rcases Except.ok.inj h3 with h4
          rw [← h4]
          exact hx1
        · rw [if_neg hall] at h
          exact ih (cIdx + 2) (backoffStep mu) ⟨x1, z1, q1⟩ true out hx1 h
      · rw [h2] at h
        dsimp only at h
        rcases Option.some_inj.mp h with h3
        rcases Except.ok.inj h3 with h4
        rw [← h4]
        exact hs (cIdx + 1) x2 z2 q2 h2

/-- C3.  If `A` has no zero-marginal tract and no solve attempt ever sets
`x.value` to anything with a nonzero entry, then whenever the routine
returns, its weight matrix is exactly the rescaled prior `w`. -/
theorem balance_multi_cvx_fallback (solver : ℕ → SolveOutcome)
    (hh A B w : Mat) (mu : List ℚ) (fuel : ℕ)
    (hA : zeroMarginalIndices A = [])
    (hs : ∀ k xv zv qv, solver k = .returns xv zv qv → anyNonzeroOpt xv = false)
    (r : Mat × Option Mat × Option Mat)
    (hr : balance_multi_cvx solver hh A B w mu fuel = some (.ok r)) :
    r.1 = rescaleWeights A w := by
  rw [balance_multi_cvx] at hr
  simp only [hA, deleteRows_nil] at hr
  rcases hb : bmcLoop solver fuel 0 (deleteIdxs mu []) ⟨none, none, none⟩ false with
    _ | e
  · rw [hb] at hr; simp at hr
  · rw [hb] at hr
    rcases e with e | ⟨vals, mu1, rel1⟩
    · simp at hr
    · have hxv : anyNonzeroOpt vals.xv = false :=
        bmcLoop_xv_all_zero solver hs fuel 0 (deleteIdxs mu []) ⟨none, none, none⟩
          false (vals, mu1, rel1) (by rfl) hb
      simp only [List.isEmpty_nil, if_true] at hr
      rcases vals with ⟨xv, zv, qv⟩
      rcases xv with _ | xm
      · rcases Option.some_inj.mp hr with h3
        rcases Except.ok.inj h3 with h4
        rw [← h4]
      · have : anyNonzero xm = false := hxv
        simp only [this, Bool.false_eq_true, if_false] at hr
        rcases Option.some_inj.mp hr with h3
        rcases Except.ok.inj h3 with h4
        rw [← h4]

/-- C3, witness: a solver that always returns with all values `None`. -/
theorem balance_multi_cvx_fallback_witness :
    (rescaleWeights [[1]] [[2]], (none : Option Mat), (none : Option Mat)).1 =
      rescaleWeights [[1]] [[2]] :=
  balance_multi_cvx_fallback (fun _ => .returns none none none)
    [[1]] [[1]] [[1]] [[2]] [1000] 5 (by rfl)
    (fun _ xv _ _ h => by cases h; rfl)
    (rescaleWeights [[1]] [[2]], none, none) (by rfl)

/-- The natural value of an integer-valued rational. -/
def natOfQ (e : ℚ) : ℕ := e.num.toNat

/-- Termination measure for the backoff loop: the sum of the (integer)
entries of `mu`. -/
def muMeasure (mu : List ℚ) : ℕ := (mu.map natOfQ).sum

/-- `mu` has positive-integer entries. -/
def NatMu (mu : List ℚ) : Prop := ∀ e ∈ mu, ∃ n : ℕ, 1 ≤ n ∧ e = (n : ℚ)

theorem natMu_one_le {mu : List ℚ} (h : NatMu mu) : ∀ e ∈ mu, 1 ≤ e := by
  intro e he
  rcases h e he with ⟨n, hn1, hne⟩
  rw [hne]
  exact_mod_cast hn1

theorem backoffStep_natMu {mu : List ℚ} (h : NatMu mu) : NatMu (backoffStep mu) := by
  intro e he
  rcases List.mem_map.mp he with ⟨a, ha, hae⟩
  rcases h a ha with ⟨n, hn1, han⟩
  by_cases hc : (10 : ℚ) < a
  · have h10 : 10 < n := by
      rw [han] at hc
      exact_mod_cast hc
    refine ⟨n - 10, by omega, ?_⟩
    rw [← hae, if_pos hc, han]
    push_cast [Nat.cast_sub (le_of_lt h10)]
    ring
  · exact ⟨1, le_refl 1, by rw [← hae, if_neg hc]; norm_num⟩

theorem backoffStep_pointwise_le {mu : List ℚ} (h : NatMu mu) :
    List.Forall₂ (· ≤ ·) (backoffStep mu) mu := by
  induction mu with
  | nil => exact List.Forall₂.nil
  | cons a l ih =>
    have ha : ∃ n : ℕ, 1 ≤ n ∧ a = (n : ℚ) := h a (List.mem_cons_self a l)
    refine List.Forall₂.cons ?_ (ih (fun e he => h e (List.mem_cons_of_mem a he)))
    by_cases hc : (10 : ℚ) < a
    · simp only [backoffStep, List.map_cons, if_pos hc]
      linarith
    · simp only [backoffStep, List.map_cons, if_neg hc]
      rcases ha with ⟨n, hn1, han⟩
      rw [han]
      exact_mod_cast hn1

theorem natMu_iterate {mu : List ℚ} (h : NatMu mu) (k : ℕ) :
    NatMu (backoffStep^[k] mu) := by
  induction k generalizing mu with
  | zero => exact h
  | succ n ih =>
    rw [Function.iterate_succ_apply]
    exact ih (backoffStep_natMu h)

theorem natOfQ_natCast (n : ℕ) : natOfQ (n : ℚ) = n := by
  simp [natOfQ]

theorem muMeasure_backoff_lt {mu : List ℚ} (h : NatMu mu)
    (hne : ∃ e ∈ mu, e ≠ 1) : muMeasure (backoffStep mu) < muMeasure mu := by
  induction mu with
  | nil => rcases hne with ⟨e, he, _⟩; exact absurd he (List.not_mem_nil e)
  | cons a l ih =>
    have hmem : ∃ n : ℕ, 1 ≤ n ∧ a = (n : ℚ) := h a (List.mem_cons_self a l)
    rcases hmem with ⟨n, hn1, han⟩
    have hl : NatMu l := fun e he => h e (List.mem_cons_of_mem a he)
    have hheadle : natOfQ (if (10 : ℚ) < a then a - 10 else 1) ≤ natOfQ a := by
      by_cases hc : (10 : ℚ) < a
      · have h10 : 10 < n := by rw [han] at hc; exact_mod_cast hc
        rw [if_pos hc, han]
        have : (n : ℚ) - 10 = ((n - 10 : ℕ) : ℚ) := by
          push_cast [Nat.cast_sub (le_of_lt h10)]; ring
        rw [this, natOfQ_natCast, natOfQ_natCast]
        omega
      · rw [if_neg hc, han, natOfQ_natCast]
        have : natOfQ 1 = 1 := by norm_num [natOfQ]
        omega
    have htaille : ∀ e ∈ l, natOfQ (if (10 : ℚ) < e then e - 10 else 1) ≤ natOfQ e := by
      intro e he
      rcases hl e he with ⟨m, hm1, hem⟩
      by_cases hc : (10 : ℚ) < e
      · have h10 : 10 < m := by rw [hem] at hc; exact_mod_cast hc
        rw [if_pos hc, hem]
        have : (m : ℚ) - 10 = ((m - 10 : ℕ) : ℚ) := by
          push_cast [Nat.cast_sub (le_of_lt h10)]; ring
        rw [this, natOfQ_natCast, natOfQ_natCast]
        omega
      · rw [if_neg hc, hem, natOfQ_natCast]
        have : natOfQ 1 = 1 := by norm_num [natOfQ]
        omega
    have hsumle : muMeasure (backoffStep l) ≤ muMeasure l := by
      simp only [muMeasure, backoffStep, List.map_map]
      exact List.sum_le_sum (fun e he => htaille e he)
    rcases hne with ⟨e, he, hene⟩
    rcases List.mem_cons.mp he with rfl | hel
    · have hn2 : 2 ≤ n := by
        by_contra hcon
        push_neg at hcon
        have hn1' : n = 1 := by omega
        exact hene (by rw [han, hn1']; norm_num)
      have hheadlt : natOfQ (if (10 : ℚ) < e then e - 10 else 1) < natOfQ e := by
        by_cases hc : (10 : ℚ) < e
        · have h10 : 10 < n := by rw [han] at hc; exact_mod_cast hc
          rw [if_pos hc, han]
          have : (n : ℚ) - 10 = ((n - 10 : ℕ) : ℚ) := by
            push_cast [Nat.cast_sub (le_of_lt h10)]; ring
          rw [this, natOfQ_natCast, natOfQ_natCast]
          omega
        · rw [if_neg hc, han, natOfQ_natCast]
          have : natOfQ 1 = 1 := by norm_num [natOfQ]
          omega
      simp only [muMeasure, backoffStep, List.map_cons, List.map_map, List.sum_cons]
      have := hsumle
      simp only [muMeasure, backoffStep, List.map_map] at this
      omega
    · have hlt : muMeasure (backoffStep l) < muMeasure l :=
        ih hl ⟨e, hel, hene⟩
      simp only [muMeasure, backoffStep, List.map_cons, List.map_map, List.sum_cons]
      simp only [muMeasure, backoffStep, List.map_map] at hlt
      omega

theorem backoff_reaches_ones_aux :
    ∀ (N : ℕ) (mu : List ℚ), muMeasure mu ≤ N → NatMu mu →
      ∃ K, backoffStep^[K] mu = List.replicate mu.length 1 := by
  intro N
  induction N with
  | zero =>
    intro mu hm hn
    by_cases hall : ∀ e ∈ mu, e = 1
    · exact ⟨0, List.eq_replicate_iff.mpr ⟨rfl, hall⟩⟩
    · push_neg at hall
      have := muMeasure_backoff_lt hn hall
      omega
  | succ N ih =>
    intro mu hm hn
    by_cases hall : ∀ e ∈ mu, e = 1
    · exact ⟨0, List.eq_replicate_iff.mpr ⟨rfl, hall⟩⟩
    · push_neg at hall
      have hlt := muMeasure_backoff_lt hn hall
      rcases ih (backoffStep mu) (by omega) (backoffStep_natMu hn) with ⟨K, hK⟩
      refine ⟨K + 1, ?_⟩
      rw [Function.iterate_succ_apply, hK]
      simp [backoffStep]

theorem bmcLoop_isSome_of_fuel :
    ∀ (N : ℕ) (solver : ℕ → SolveOutcome) (mu : List ℚ),
      NatMu mu → muMeasure mu < N →
      ∀ (cIdx : ℕ) (vals : CvxVals) (relaxed : Bool),
        (bmcLoop solver N cIdx mu vals relaxed).isSome = true := by
  intro N
  induction N with
  | zero => intro solver mu _ hm; omega
  | succ N ih =>
    intro solver mu hn hm cIdx vals relaxed
    rw [bmcLoop]
    rcases h1 : solver cIdx with _ | ⟨x1, z1, q1⟩
    · simp
    · rcases h2 : solver (cIdx + 1) with _ | ⟨x2, z2, q2⟩
      · dsimp only
        by_cases hall : (mu.all fun e => decide (e = 1)) = true
        · rw [if_pos hall]; simp
        · rw [if_neg hall]
          have hne : ∃ e ∈ mu, e ≠ 1 := by
            simp only [List.all_eq_true, decide_eq_true_eq] at hall
            push_neg at hall
            exact hall
          exact ih solver (backoffStep mu) (backoffStep_natMu hn)
            (by have := muMeasure_backoff_lt hn hne; omega) (cIdx + 2)
            ⟨x1, z1, q1⟩ true
      · simp

/-- C2 (amended).  The backoff step maps every entry `e` of `mu` to
`e - 10` when `e > 10` and to `1` otherwise.  Provided every entry of the
initial `mu` is a positive integer (as the default `1000` is): across
repeated solver failures `mu` is non-increasing, every entry stays `≥ 1`
at all times, `mu` reaches the uniformly-one vector after finitely many
backoffs, and the retry loop terminates within `muMeasure mu + 1`
iterations (it exits once `mu` is uniformly 1). -/
theorem backoff_monotone_and_loop_terminates (solver : ℕ → SolveOutcome)
    (mu : List ℚ) (hnat : ∀ e ∈ mu, ∃ n : ℕ, 1 ≤ n ∧ e = (n : ℚ)) :
    (∀ k : ℕ, ∀ e ∈ backoffStep^[k] mu, 1 ≤ e) ∧
    (∀ k : ℕ, List.Forall₂ (· ≤ ·) (backoffStep^[k + 1] mu) (backoffStep^[k] mu)) ∧
    (∃ K, backoffStep^[K] mu = List.replicate mu.length 1) ∧
    (∀ (cIdx : ℕ) (vals : CvxVals) (relaxed : Bool),
      (bmcLoop solver (muMeasure mu + 1) cIdx mu vals relaxed).isSome = true) := by
  have hn : NatMu mu := hnat
  refine ⟨?_, ?_, ?_, ?_⟩
  · intro k e he
    exact natMu_one_le (natMu_iterate hn k) e he
  · intro k
    rw [Function.iterate_succ_apply']
    exact backoffStep_pointwise_le (natMu_iterate hn k)
  · exact backoff_reaches_ones_aux (muMeasure mu) mu le_rfl hn
  · intro cIdx vals relaxed
    exact bmcLoop_isSome_of_fuel (muMeasure mu + 1) solver mu hn (by omega)
      cIdx vals relaxed

/-- C2 (amended), witness at `mu = [1000]`. -/
theorem backoff_monotone_and_loop_terminates_witness :
    (∀ k : ℕ, ∀ e ∈ backoffStep^[k] [(1000 : ℚ)], 1 ≤ e) ∧
    (∀ k : ℕ, List.Forall₂ (· ≤ ·) (backoffStep^[k + 1] [(1000 : ℚ)])
      (backoffStep^[k] [(1000 : ℚ)])) ∧
    (∃ K, backoffStep^[K] [(1000 : ℚ)] = List.replicate ([(1000 : ℚ)]).length 1) ∧
    (∀ (cIdx : ℕ) (vals : CvxVals) (relaxed : Bool),
      (bmcLoop (fun _ => SolveOutcome.raises) (muMeasure [(1000 : ℚ)] + 1)
        cIdx [(1000 : ℚ)] vals relaxed).isSome = true) :=
  backoff_monotone_and_loop_terminates (fun _ => SolveOutcome.raises) [(1000 : ℚ)]
    (by
      intro e he
      rw [List.mem_singleton] at he
      subst he
      exact ⟨1000, by norm_num, by norm_num⟩)

theorem getD_map (f : ℚ → ℚ) (w : List ℚ) (s : ℕ) (h : s < w.length) :
    (w.map f).getD s 0 = f (w.getD s 0) := by
  simp [List.getD_eq_getElem, h]

theorem getD_all_zero (r : List ℚ) (h : ∀ e ∈ r, e = 0) (j : ℕ) :
    r.getD j 0 = 0 := by
  rcases Nat.lt_or_ge j r.length with hj | hj
  · rw [List.getD_eq_getElem _ _ hj]
    exact h _ (r.getElem_mem hj)
  · exact List.getD_eq_default _ _ hj

theorem updateW_length (pw : ℚ → ℚ → ℚ) (a : ℚ) :
    ∀ c p q lo hi : List ℚ,
      (updateW pw a c p q lo hi).length =
        min c.length (min p.length (min q.length (min lo.length hi.length)))
  | [], p, q, lo, hi => by simp [updateW]
  | _ :: _, [], q, lo, hi => by simp [updateW]
  | _ :: _, _ :: _, [], lo, hi => by simp [updateW]
  | _ :: _, _ :: _, _ :: _, [], hi => by simp [updateW]
  | _ :: _, _ :: _, _ :: _, _ :: _, [] => by simp [updateW]
  | c :: cs, p :: ps, q :: qs, lo :: los, hi :: his => by
    simp only [updateW, List.length_cons, updateW_length pw a cs ps qs los his]
    omega

theorem updateW_getD (pw : ℚ → ℚ → ℚ) (a : ℚ) :
    ∀ (c p q lo hi : List ℚ) (s : ℕ), s < c.length → s < p.length →
      s < q.length → s < lo.length → s < hi.length →
      (updateW pw a c p q lo hi).getD s 0 =
        if 0 < c.getD s 0 then
          min (max (p.getD s 0 * pw a (c.getD s 0)) (lo.getD s 0)) (hi.getD s 0)
        else q.getD s 0
  | [], _, _, _, _, s, h1, _, _, _, _ => absurd h1 (by simp)
  | _ :: _, [], _, _, _, s, _, h2, _, _, _ => absurd h2 (by simp)
  | _ :: _, _ :: _, [], _, _, s, _, _, h3, _, _ => absurd h3 (by simp)
  | _ :: _, _ :: _, _ :: _, [], _, s, _, _, _, h4, _ => absurd h4 (by simp)
  | _ :: _, _ :: _, _ :: _, _ :: _, [], s, _, _, _, _, h5 => absurd h5 (by simp)
  | c :: cs, p :: ps, q :: qs, lo :: los, hi :: his, 0, _, _, _, _, _ => by
    simp [updateW]
  | c :: cs, p :: ps, q :: qs, lo :: los, hi :: his, s + 1, h1, h2, h3, h4, h5 => by
    simp only [updateW, List.getD_cons_succ]
    exact updateW_getD pw a cs ps qs los his s (by simpa using h1)
      (by simpa using h2) (by simpa using h3) (by simpa using h4) (by simpa using h5)

/-- The per-sample bounds invariant of the Newton balancer: `v` has the
same length as `w` and every entry lies in `[w/5, w*5]`. -/
def WInRange (w v : List ℚ) : Prop :=
  v.length = w.length ∧
    ∀ s, s < w.length → w.getD s 0 / 5 ≤ v.getD s 0 ∧ v.getD s 0 ≤ w.getD s 0 * 5

theorem updateW_WInRange (pw : ℚ → ℚ → ℚ) (a : ℚ) (w ck prevw cur : List ℚ)
    (hw : ∀ i, i < w.length → 0 < w.getD i 0)
    (hck : ck.length = w.length) (hprev : prevw.length = w.length)
    (hcur : WInRange w cur) :
    WInRange w (updateW pw a ck prevw cur
      (w.map (fun v => v / 5)) (w.map (fun v => v * 5))) := by
  constructor
  · rw [updateW_length]
    simp only [List.length_map, hck, hprev, hcur.1]
    omega
  · intro s hs
    have h1 : s < ck.length := by omega
    have h2 : s < prevw.length := by omega
    have h3 : s < cur.length := by rw [hcur.1]; exact hs
    have h4 : s < (w.map (fun v => v / 5)).length := by simp; omega
    have h5 : s < (w.map (fun v => v * 5)).length := by simp; omega
    rw [updateW_getD pw a ck prevw cur _ _ s h1 h2 h3 h4 h5]
    by_cases hc : 0 < ck.getD s 0
    · rw [if_pos hc, getD_map _ w s hs, getD_map _ w s hs]
      have hws := hw s hs
      have hlohi : w.getD s 0 / 5 ≤ w.getD s 0 * 5 := by linarith
      exact ⟨le_min (le_max_right _ _) hlohi, min_le_right _ _⟩
    · rw [if_neg hc]
      exact hcur.2 s hs

theorem controlStep_WInRange (pw : ℚ → ℚ → ℚ) (hh : Mat) (A mu w : List ℚ)
    (hlen : hh.length = w.length)
    (hw : ∀ i, i < w.length → 0 < w.getD i 0)
    (prevw : List ℚ) (st : List ℚ × List ℚ × List ℚ) (k : ℕ)
    (hprev : prevw.length = w.length) (hst : WInRange w st.1) :
    WInRange w ((controlStep pw hh A mu
      (w.map (fun v => v / 5)) (w.map (fun v => v * 5)) prevw st k).1) := by
  have hck : (colQ hh k).length = w.length := by simp [colQ, hlen]
  simp only [controlStep]
  exact updateW_WInRange pw _ w (colQ hh k) prevw st.1 hw hck hprev hst

theorem foldl_controlStep_inv (pw : ℚ → ℚ → ℚ) (hh : Mat)
    (A mu lo hi prevw : List ℚ) (P : List ℚ → Prop)
    (hstep : ∀ (st : List ℚ × List ℚ × List ℚ) (k : ℕ), P st.1 →
      P ((controlStep pw hh A mu lo hi prevw st k).1)) :
    ∀ (ks : List ℕ) (st : List ℚ × List ℚ × List ℚ), P st.1 →
      P ((ks.foldl (controlStep pw hh A mu lo hi prevw) st).1)
  | [], _, hst => hst
  | k :: ks, st, hst =>
    foldl_controlStep_inv pw hh A mu lo hi prevw P hstep ks
      (controlStep pw hh A mu lo hi prevw st k) (hstep st k hst)

theorem newtonSweep_inv (pw : ℚ → ℚ → ℚ) (hh : Mat) (A mu lo hi : List ℚ)
    (P : List ℚ → Prop)
    (hstep : ∀ (prevw : List ℚ) (st : List ℚ × List ℚ × List ℚ) (k : ℕ),
      P prevw → P st.1 → P ((controlStep pw hh A mu lo hi prevw st k).1))
    (st : List ℚ × List ℚ × List ℚ) (hst : P st.1) :
    P ((newtonSweep pw hh A mu lo hi st).1) :=
  foldl_controlStep_inv pw hh A mu lo hi st.1 P
    (fun st2 k h => hstep st.1 st2 k hst h) (List.range A.length) st hst

theorem newtonLoop_inv (pw : ℚ → ℚ → ℚ) (hh : Mat) (A mu lo hi : List ℚ)
    (P : List ℚ → Prop)
    (hsweep : ∀ st : List ℚ × List ℚ × List ℚ, P st.1 →
      P ((newtonSweep pw hh A mu lo hi st).1)) :
    ∀ (fuel : ℕ) (st : List ℚ × List ℚ × List ℚ), P st.1 →
      P (((newtonLoop pw hh A mu lo hi fuel st).1).1) := by
  intro fuel
  induction fuel with
  | zero => intro st h; exact h
  | succ n ih =>
    intro st h
    rw [newtonLoop]
    by_cases hc : weightDiff (newtonSweep pw hh A mu lo hi st).1 st.1 ≤ MAX_GAP
    · rw [if_pos hc]
      exact hsweep st h
    · rw [if_neg hc]
      exact ih (newtonSweep pw hh A mu lo hi st) (hsweep st h)

/-- C6.  For strictly positive initial weights (and a household table with
one row per weight), every weight returned by the Newton balancer lies in
`[w/5, w*5]`; the clamp bounds hold for any power function `pw`. -/
theorem balance_newton_weights_in_bounds (pw : ℚ → ℚ → ℚ) (hh : Mat)
    (A w mu : List ℚ) (hlen : hh.length = w.length)
    (hw : ∀ i, i < w.length → 0 < w.getD i 0) (i : ℕ) (hiw : i < w.length) :
    w.getD i 0 / 5 ≤ (balance_newton pw hh A w mu).1.getD i 0 ∧
      (balance_newton pw hh A w mu).1.getD i 0 ≤ w.getD i 0 * 5 := by
  have hinv : WInRange w (((newtonLoop pw hh A mu (w.map (fun v => v / 5))
      (w.map (fun v => v * 5)) MAX_ITERATIONS
      (w, List.replicate (hh.headD []).length 1,
        List.replicate (hh.headD []).length 1)).1).1) := by
    apply newtonLoop_inv
    · intro st hst
      apply newtonSweep_inv
      · intro prevw st2 k hprev hst2
        exact controlStep_WInRange pw hh A mu w hlen hw prevw st2 k hprev.1 hst2
      · exact hst
    · refine ⟨rfl, fun s hs => ?_⟩
      have := hw s hs
      constructor <;> linarith
  exact hinv.2 i hiw

/-- C6, witness. -/
theorem balance_newton_weights_in_bounds_witness :
    ([(1 : ℚ)].getD 0 0) / 5 ≤
        (balance_newton (fun _ _ => 1) [[1]] [2] [1] [1000]).1.getD 0 0 ∧
      (balance_newton (fun _ _ => 1) [[1]] [2] [1] [1000]).1.getD 0 0 ≤
        ([(1 : ℚ)].getD 0 0) * 5 :=
  balance_newton_weights_in_bounds (fun _ _ => 1) [[1]] [2] [1] [1000] (by rfl)
    (by
      intro i h
      have h0 : i = 0 := by simpa using h
      subst h0
      norm_num)
    0 (by norm_num)

/-- Frame invariant for one sample: `v` keeps `w`'s length and `w`'s value
at index `i`. -/
def KeepsW (w : List ℚ) (i : ℕ) (v : List ℚ) : Prop :=
  v.length = w.length ∧ v.getD i 0 = w.getD i 0

theorem updateW_KeepsW (pw : ℚ → ℚ → ℚ) (a : ℚ)
    (w ck prevw cur lov hiv : List ℚ) (i : ℕ) (hiw : i < w.length)
    (hck : ck.length = w.length) (hc0 : ck.getD i 0 = 0)
    (hprev : prevw.length = w.length) (hlov : lov.length = w.length)
    (hhiv : hiv.length = w.length) (hcur : KeepsW w i cur) :
    KeepsW w i (updateW pw a ck prevw cur lov hiv) := by
  constructor
  · rw [updateW_length]
    simp only [hck, hprev, hcur.1, hlov, hhiv]
    omega
  · rw [updateW_getD pw a ck prevw cur lov hiv i (by omega) (by omega)
      (by rw [hcur.1]; omega) (by omega) (by omega)]
    rw [hc0]
    simp only [lt_irrefl, if_false]
    exact hcur.2

theorem controlStep_KeepsW (pw : ℚ → ℚ → ℚ) (hh : Mat) (A mu w : List ℚ)
    (hlen : hh.length = w.length) (i : ℕ) (hiw : i < w.length)
    (hrow : ∀ e ∈ hh.getD i [], e = 0)
    (prevw : List ℚ) (st : List ℚ × List ℚ × List ℚ) (k : ℕ)
    (hprev : prevw.length = w.length) (hst : KeepsW w i st.1) :
    KeepsW w i ((controlStep pw hh A mu
      (w.map (fun v => v / 5)) (w.map (fun v => v * 5)) prevw st k).1) := by
  have hih : i < hh.length := by omega
  have hck : (colQ hh k).length = w.length := by simp [colQ, hlen]
  have hrow2 : ∀ e ∈ hh[i], e = 0 := by
    rw [← List.getD_eq_getElem hh [] hih]
    exact hrow
  have hc0 : (colQ hh k).getD i 0 = 0 := by
    have h1 : (colQ hh k).getD i 0 = (hh[i]).getD k 0 := by
      simp [colQ, List.getD_eq_getElem, hih]
    rw [h1]
    exact getD_all_zero _ hrow2 k
  simp only [controlStep]
  exact updateW_KeepsW pw _ w (colQ hh k) prevw st.1 _ _ i hiw hck hc0 hprev
    (by simp) (by simp) hst

/-- C10.  A sample whose household-table row is entirely zero is never
updated: its returned weight equals its initial weight exactly. -/
theorem balance_newton_zero_row_fixed (pw : ℚ → ℚ → ℚ) (hh : Mat)
    (A w mu : List ℚ) (i : ℕ) (hlen : hh.length = w.length)
    (hiw : i < w.length) (hrow : ∀ e ∈ hh.getD i [], e = 0) :
    (balance_newton pw hh A w mu).1.getD i 0 = w.getD i 0 := by
  have hinv : KeepsW w i (((newtonLoop pw hh A mu (w.map (fun v => v / 5))
      (w.map (fun v => v * 5)) MAX_ITERATIONS
      (w, List.replicate (hh.headD []).length 1,
        List.replicate (hh.headD []).length 1)).1).1) := by
    apply newtonLoop_inv
    · intro st hst
      apply newtonSweep_inv
      · intro prevw st2 k hprev hst2
        exact controlStep_KeepsW pw hh A mu w hlen i hiw hrow prevw st2 k
          hprev.1 hst2
      · exact hst
    · exact ⟨rfl, rfl⟩
  exact hinv.2

/-- C10, witness. -/
theorem balance_newton_zero_row_fixed_witness :
    (balance_newton (fun _ _ => 1) [[0]] [2] [1] [1000]).1.getD 0 0 =
      [(1 : ℚ)].getD 0 0 :=
  balance_newton_zero_row_fixed (fun _ _ => 1) [[0]] [2] [1] [1000] 0 (by rfl)
    (by norm_num)
    (by intro e he; simpa using he)

/-- The initial Newton state: `cur_w = prev_w = w`, `alpha = z = ones`. -/
def newtonInit (hh : Mat) (w : List ℚ) : List ℚ × List ℚ × List ℚ :=
  (w, List.replicate (hh.headD []).length 1, List.replicate (hh.headD []).length 1)

/-- The state after `k` full sweeps of `balance_newton`. -/
def newtonStateSeq (pw : ℚ → ℚ → ℚ) (hh : Mat) (A w mu : List ℚ) (k : ℕ) :
    List ℚ × List ℚ × List ℚ :=
  (newtonSweep pw hh A mu (w.map (fun v => v / 5)) (w.map (fun v => v * 5)))^[k]
    (newtonInit hh w)

/-- The mean absolute weight change of sweep `k + 1` of `balance_newton`. -/
def newtonDiffSeq (pw : ℚ → ℚ → ℚ) (hh : Mat) (A w mu : List ℚ) (k : ℕ) : ℚ :=
  weightDiff (newtonStateSeq pw hh A w mu (k + 1)).1 (newtonStateSeq pw hh A w mu k).1

theorem newtonLoop_spec (pw : ℚ → ℚ → ℚ) (hh : Mat) (A mu lo hi : List ℚ) :
    ∀ (fuel : ℕ) (st : List ℚ × List ℚ × List ℚ),
      (newtonLoop pw hh A mu lo hi fuel st).2 ≤ fuel ∧
      (0 < fuel → 1 ≤ (newtonLoop pw hh A mu lo hi fuel st).2) ∧
      (newtonLoop pw hh A mu lo hi fuel st).1 =
        (newtonSweep pw hh A mu lo hi)^[(newtonLoop pw hh A mu lo hi fuel st).2] st ∧
      (∀ j, j + 1 < (newtonLoop pw hh A mu lo hi fuel st).2 →
        MAX_GAP < weightDiff ((newtonSweep pw hh A mu lo hi)^[j + 1] st).1
          ((newtonSweep pw hh A mu lo hi)^[j] st).1) ∧
      ((newtonLoop pw hh A mu lo hi fuel st).2 < fuel →
        1 ≤ (newtonLoop pw hh A mu lo hi fuel st).2 ∧
        weightDiff
          ((newtonSweep pw hh A mu lo hi)^[(newtonLoop pw hh A mu lo hi fuel st).2] st).1
          ((newtonSweep pw hh A mu lo hi)^[(newtonLoop pw hh A mu lo hi fuel st).2 - 1] st).1
          ≤ MAX_GAP) := by
  intro fuel
  induction fuel with
  | zero =>
    intro st
    have h0 : newtonLoop pw hh A mu lo hi 0 st = (st, 0) := rfl
    rw [h0]
    exact ⟨le_refl 0, by omega, rfl, fun j hj => absurd hj (by omega),
      fun hlt => absurd hlt (by omega)⟩
  | succ n ih =>
    intro st
    by_cases hc : weightDiff (newtonSweep pw hh A mu lo hi st).1 st.1 ≤ MAX_GAP
    · have hr : newtonLoop pw hh A mu lo hi (n + 1) st =
          (newtonSweep pw hh A mu lo hi st, 1) := by
        rw [newtonLoop, if_pos hc]
      rw [hr]
      refine ⟨by omega, fun _ => le_refl 1, ?_, fun j hj => absurd hj (by omega),
        fun _ => ⟨le_refl 1, ?_⟩⟩
      · rw [Function.iterate_one]
      · rw [Function.iterate_one]
        simpa using hc
    · have hr : newtonLoop pw hh A mu lo hi (n + 1) st =
          ((newtonLoop pw hh A mu lo hi n (newtonSweep pw hh A mu lo hi st)).1,
           (newtonLoop pw hh A mu lo hi n (newtonSweep pw hh A mu lo hi st)).2 + 1) := by
        rw [newtonLoop, if_neg hc]
      obtain ⟨ha, _, hcc, hd, he⟩ := ih (newtonSweep pw hh A mu lo hi st)
      rw [hr]
      refine ⟨by omega, fun _ => by omega, ?_, ?_, ?_⟩
      · rw [Function.iterate_succ_apply]
        exact hcc
      · intro j hj
        match j with
        | 0 =>
          rw [Function.iterate_one, Function.iterate_zero_apply]
          exact lt_of_not_le hc
        | j' + 1 =>
          rw [Function.iterate_succ_apply (newtonSweep pw hh A mu lo hi) (j' + 1) st,
            Function.iterate_succ_apply (newtonSweep pw hh A mu lo hi) j' st]
          exact hd j' (by omega)
      · intro hlt
        have hlt2 : (newtonLoop pw hh A mu lo hi n
            (newtonSweep pw hh A mu lo hi st)).2 < n := by omega
        obtain ⟨h1e, h2e⟩ := he hlt2
        refine ⟨by omega, ?_⟩
        have hsub : (newtonLoop pw hh A mu lo hi n
            (newtonSweep pw hh A mu lo hi st)).2 + 1 - 1 =
            (newtonLoop pw hh A mu lo hi n (newtonSweep pw hh A mu lo hi st)).2 := by
          omega
        rw [hsub, Function.iterate_succ_apply]
        have hsub2 : (newtonLoop pw hh A mu lo hi n
            (newtonSweep pw hh A mu lo hi st)).2 =
            ((newtonLoop pw hh A mu lo hi n
              (newtonSweep pw hh A mu lo hi st)).2 - 1) + 1 := by
          omega
        have hiter : (newtonSweep pw hh A mu lo hi)^[(newtonLoop pw hh A mu lo hi n
              (newtonSweep pw hh A mu lo hi st)).2] st =
            (newtonSweep pw hh A mu lo hi)^[(newtonLoop pw hh A mu lo hi n
              (newtonSweep pw hh A mu lo hi st)).2 - 1]
              (newtonSweep pw hh A mu lo hi st) := by
          conv_lhs => rw [hsub2]
          rw [Function.iterate_succ_apply]
        rw [hiter]
        exact h2e

/-- C5.  The sweep loop of `balance_newton` executes between 1 and
`MAX_ITERATIONS = 10000` sweeps; it stops early exactly when a sweep's
mean absolute weight change is `≤ MAX_GAP = 1e-7` (no earlier sweep
reached the gap), and otherwise runs exactly the hard cap. -/
theorem balance_newton_terminates (pw : ℚ → ℚ → ℚ) (hh : Mat)
    (A w mu : List ℚ) :
    (balance_newtonFull pw hh A w mu).2 ≤ MAX_ITERATIONS ∧
    1 ≤ (balance_newtonFull pw hh A w mu).2 ∧
    (balance_newtonFull pw hh A w mu).1 =
      newtonStateSeq pw hh A w mu (balance_newtonFull pw hh A w mu).2 ∧
    (∀ j, j + 1 < (balance_newtonFull pw hh A w mu).2 →
      MAX_GAP < newtonDiffSeq pw hh A w mu j) ∧
    ((balance_newtonFull pw hh A w mu).2 < MAX_ITERATIONS →
      newtonDiffSeq pw hh A w mu
        ((balance_newtonFull pw hh A w mu).2 - 1) ≤ MAX_GAP) := by
  obtain ⟨ha, hb, hcc, hd, he⟩ := newtonLoop_spec pw hh A mu
    (w.map (fun v => v / 5)) (w.map (fun v => v * 5)) MAX_ITERATIONS
    (newtonInit hh w)
  have h1L : 1 ≤ (balance_newtonFull pw hh A w mu).2 :=
    hb (by norm_num [MAX_ITERATIONS])
  refine ⟨ha, h1L, hcc, hd, ?_⟩
  intro h
  have hsub : (balance_newtonFull pw hh A w mu).2 - 1 + 1 =
      (balance_newtonFull pw hh A w mu).2 := by omega
  rw [newtonDiffSeq, hsub]
  exact (he h).2

/-- C5, witness. -/
theorem balance_newton_terminates_witness :
    (balance_newtonFull (fun _ _ => 1) [[1]] [2] [1] [1000]).2 ≤ MAX_ITERATIONS ∧
    1 ≤ (balance_newtonFull (fun _ _ => 1) [[1]] [2] [1] [1000]).2 ∧
    (balance_newtonFull (fun _ _ => 1) [[1]] [2] [1] [1000]).1 =
      newtonStateSeq (fun _ _ => 1) [[1]] [2] [1] [1000]
        (balance_newtonFull (fun _ _ => 1) [[1]] [2] [1] [1000]).2 ∧
    (∀ j, j + 1 < (balance_newtonFull (fun _ _ => 1) [[1]] [2] [1] [1000]).2 →
      MAX_GAP < newtonDiffSeq (fun _ _ => 1) [[1]] [2] [1] [1000] j) ∧
    ((balance_newtonFull (fun _ _ => 1) [[1]] [2] [1] [1000]).2 < MAX_ITERATIONS →
      newtonDiffSeq (fun _ _ => 1) [[1]] [2] [1] [1000]
        ((balance_newtonFull (fun _ _ => 1) [[1]] [2] [1] [1000]).2 - 1) ≤ MAX_GAP) :=
  balance_newton_terminates (fun _ _ => 1) [[1]] [2] [1] [1000]

theorem getD_set_self (l : List ℚ) (k : ℕ) (h : k < l.length) (a : ℚ) :
    (l.set k a).getD k 0 = a := by
  have h2 : k < (l.set k a).length := by simpa using h
  rw [List.getD_eq_getElem _ _ h2]
  exact List.getElem_set_self h2

/-- C7.  The per-control step computes `alpha[k]` by the claimed three-way
case split on `x = prev_w . H[:,k]` and `A[k]`, and then rescales the
relaxation factor by `z[k] := z[k] * (1/alpha[k]) ** (1/mu[k])`. -/
theorem controlStep_formulas (pw : ℚ → ℚ → ℚ) (hh : Mat)
    (A mu lo hi prevw cur alpha z : List ℚ) (k : ℕ)
    (hka : k < alpha.length) (hkz : k < z.length) :
    (0 < dotQ prevw (colQ hh k) → 0 < A.getD k 0 →
      ((controlStep pw hh A mu lo hi prevw (cur, alpha, z) k).2.1).getD k 0 =
        1 - (dotQ prevw (colQ hh k) - A.getD k 0 * z.getD k 0) /
          (dotQ prevw ((colQ hh k).map (fun c => c * c)) +
            A.getD k 0 * z.getD k 0 / mu.getD k 0)) ∧
    (0 < dotQ prevw (colQ hh k) → A.getD k 0 = 0 →
      ((controlStep pw hh A mu lo hi prevw (cur, alpha, z) k).2.1).getD k 0 =
        1 / 100) ∧
    (dotQ prevw (colQ hh k) ≤ 0 →
      ((controlStep pw hh A mu lo hi prevw (cur, alpha, z) k).2.1).getD k 0 = 1) ∧
    ((controlStep pw hh A mu lo hi prevw (cur, alpha, z) k).2.2).getD k 0 =
      z.getD k 0 *
        pw (1 / ((controlStep pw hh A mu lo hi prevw (cur, alpha, z) k).2.1).getD k 0)
          (1 / mu.getD k 0) := by
  simp only [controlStep]
  refine ⟨?_, ?_, ?_, ?_⟩
  · intro hx hA
    rw [getD_set_self alpha k hka]
    rw [if_pos hx, if_pos hA, mul_one_div]
  · intro hx hA
    have hnA : ¬ 0 < A.getD k 0 := by rw [hA]; exact lt_irrefl 0
    rw [getD_set_self alpha k hka]
    rw [if_pos hx, if_neg hnA]
  · intro hx
    rw [getD_set_self alpha k hka]
    rw [if_neg (not_lt.mpr hx)]
  · rw [getD_set_self z k hkz, getD_set_self alpha k hka]

/-- A concrete power function for witnesses: returns the base. -/
def pwFst : ℚ → ℚ → ℚ := fun b _ => b

/-- C7, witness. -/
theorem controlStep_formulas_witness :
    (0 < dotQ [(3 : ℚ)] (colQ [[(2 : ℚ)]] 0) → 0 < List.getD [(5 : ℚ)] 0 0 →
      ((controlStep pwFst [[(2 : ℚ)]] [(5 : ℚ)] [(2 : ℚ)] [(0 : ℚ)] [(100 : ℚ)]
        [(3 : ℚ)] ([(3 : ℚ)], [(1 : ℚ)], [(7 : ℚ)]) 0).2.1).getD 0 0 =
        1 - (dotQ [(3 : ℚ)] (colQ [[(2 : ℚ)]] 0) -
            List.getD [(5 : ℚ)] 0 0 * List.getD [(7 : ℚ)] 0 0) /
          (dotQ [(3 : ℚ)] ((colQ [[(2 : ℚ)]] 0).map (fun c => c * c)) +
            List.getD [(5 : ℚ)] 0 0 * List.getD [(7 : ℚ)] 0 0 /
              List.getD [(2 : ℚ)] 0 0)) ∧
    (0 < dotQ [(3 : ℚ)] (colQ [[(2 : ℚ)]] 0) → List.getD [(5 : ℚ)] 0 0 = 0 →
      ((controlStep pwFst [[(2 : ℚ)]] [(5 : ℚ)] [(2 : ℚ)] [(0 : ℚ)] [(100 : ℚ)]
        [(3 : ℚ)] ([(3 : ℚ)], [(1 : ℚ)], [(7 : ℚ)]) 0).2.1).getD 0 0 = 1 / 100) ∧
    (dotQ [(3 : ℚ)] (colQ [[(2 : ℚ)]] 0) ≤ 0 →
      ((controlStep pwFst [[(2 : ℚ)]] [(5 : ℚ)] [(2 : ℚ)] [(0 : ℚ)] [(100 : ℚ)]
        [(3 : ℚ)] ([(3 : ℚ)], [(1 : ℚ)], [(7 : ℚ)]) 0).2.1).getD 0 0 = 1) ∧
    ((controlStep pwFst [[(2 : ℚ)]] [(5 : ℚ)] [(2 : ℚ)] [(0 : ℚ)] [(100 : ℚ)]
        [(3 : ℚ)] ([(3 : ℚ)], [(1 : ℚ)], [(7 : ℚ)]) 0).2.2).getD 0 0 =
      List.getD [(7 : ℚ)] 0 0 *
        pwFst (1 / ((controlStep pwFst [[(2 : ℚ)]] [(5 : ℚ)] [(2 : ℚ)] [(0 : ℚ)]
            [(100 : ℚ)] [(3 : ℚ)] ([(3 : ℚ)], [(1 : ℚ)], [(7 : ℚ)]) 0).2.1).getD 0 0)
          (1 / List.getD [(2 : ℚ)] 0 0) :=
  controlStep_formulas pwFst [[(2 : ℚ)]] [(5 : ℚ)] [(2 : ℚ)] [(0 : ℚ)] [(100 : ℚ)]
    [(3 : ℚ)] [(3 : ℚ)] [(1 : ℚ)] [(7 : ℚ)] 0 (by norm_num) (by norm_num)
